import Mathlib

/-!
Verification of the matchms core against its specification.

This file gives a shallow embedding of three source files:
* `matchms/similarity/CosineHungarian.py` (peak matching, Hungarian assignment, score),
* `matchms/filtering/SpectrumProcessor.py` (filter pipeline construction and execution),
* `matchms/filtering/metadata_processing/derive_smiles_from_inchi.py`.

Real-valued quantities (m/z positions, intensities, weights, costs, scores) are embedded
as rationals `ℚ`; numpy arrays become lists; Python `None` becomes `Option`; raised
exceptions become `Except` errors.
-/

/-- A peak, as one row of the numpy array built by `get_peaks_arrays`:
`(mz position, intensity)`. -/
abbrev Peak : Type := ℚ × ℚ

/-- The peak array of one spectrum (rows of `numpy.vstack((mz, intensities)).T`). -/
abbrev PeakArray : Type := List Peak

/-- Embeds `find_pairs_numba(spec1, spec2, tolerance, shift)`: for each row index `idx`
of `spec1`, `numpy.where(|spec2[:,0] - spec1[idx,0] + shift| <= tolerance)` yields the
matching `spec2` row indices in increasing order, and for each such index `m` the triple
`(idx, m, spec1[idx,1] * spec2[m,1])` is appended. -/
def find_pairs_numba (spec1 spec2 : PeakArray) (tolerance : ℚ) (shift : ℚ) :
    List (ℕ × ℕ × ℚ) :=
  (List.range spec1.length).flatMap (fun idx =>
    ((List.range spec2.length).filter
        (fun m => decide (|(spec2.getD m (0, 0)).1 - (spec1.getD idx (0, 0)).1 + shift| ≤ tolerance))).map
      (fun m => (idx, m, (spec1.getD idx (0, 0)).2 * (spec2.getD m (0, 0)).2)))

/-- Embeds `get_matching_pairs`: `sorted(matching_pairs, key=lambda x: x[2], reverse=True)`.
Python `sorted` is stable, as is `List.insertionSort`. -/
def sortPairs (pairs : List (ℕ × ℕ × ℚ)) : List (ℕ × ℕ × ℚ) :=
  pairs.insertionSort (fun p q => q.2.2 ≤ p.2.2)

/-- Embeds `list1 = list({x[0] for x in matching_pairs})` of `calc_score`: the distinct
first indices. The iteration order of a Python `set` is unspecified; we fix the order
given by `List.dedup`. All claims proved below are invariant under this order. -/
def list1 (pairs : List (ℕ × ℕ × ℚ)) : List ℕ :=
  (pairs.map (fun p => p.1)).dedup

/-- Embeds `list2 = list({x[1] for x in matching_pairs})` of `calc_score`. -/
def list2 (pairs : List (ℕ × ℕ × ℚ)) : List ℕ :=
  (pairs.map (fun p => p.2.1)).dedup

/-- One assignment `matrix[list1.index(match[0]), list2.index(match[1])] = 1 - match[2]`
from the loop in `calc_score`, as a functional update of the dense matrix. -/
def writeEntry (m : ℕ → ℕ → ℚ) (l1 l2 : List ℕ) (p : ℕ × ℕ × ℚ) : ℕ → ℕ → ℚ :=
  fun i j => if i = l1.indexOf p.1 ∧ j = l2.indexOf p.2.1 then 1 - p.2.2 else m i j

/-- Embeds the matrix built by `calc_score`: `numpy.ones((len(list1), len(list2)))`
followed by one write per matching pair, later writes overwriting earlier ones. -/
def buildMatrix (l1 l2 : List ℕ) (pairs : List (ℕ × ℕ × ℚ)) : ℕ → ℕ → ℚ :=
  pairs.foldl (fun m p => writeEntry m l1 l2 p) (fun _ _ => 1)

/-- All sequences of `r` pairwise-distinct values drawn from `{0, ..., c-1}`:
the injective choices of one column per row. -/
def injections : ℕ → ℕ → List (List ℕ)
  | 0, _ => [[]]
  | r + 1, c =>
      (List.range c).flatMap (fun j =>
        ((injections r c).filter (fun t => decide (j ∉ t))).map (fun t => j :: t))

/-- Total cost of a set of matched cells: `matrix[row_ind, col_ind].sum()`. -/
def assignCost (m : ℕ → ℕ → ℚ) (assign : List (ℕ × ℕ)) : ℚ :=
  (assign.map (fun p => m p.1 p.2)).sum

/-- First element of the list minimizing `f`, if any. -/
def argminBy {α : Type} (f : α → ℚ) : List α → Option α
  | [] => none
  | a :: l =>
    match argminBy f l with
    | none => some a
    | some b => if f a ≤ f b then some a else some b

/-- Modelled from the spec: `scipy.optimize.linear_sum_assignment` is an external
library routine, specified as "Solve the rectangular linear sum assignment problem
(minimize total cost subject to a matching that is one-to-one on the smaller
dimension)"; any correct exact solver is acceptable. Embedded as exhaustive
minimization over all injective matchings of the smaller dimension into the larger. -/
def lsa (m : ℕ → ℕ → ℚ) (r c : ℕ) : List (ℕ × ℕ) :=
  if r ≤ c then
    match argminBy (fun t => assignCost m ((List.range r).zip t)) (injections r c) with
    | some t => (List.range r).zip t
    | none => []
  else
    match argminBy (fun t => assignCost m (t.zip (List.range c))) (injections c r) with
    | some t => t.zip (List.range c)
    | none => []

/-- The cost matrix that `calc_score` builds for a list of matching pairs. -/
def pairsMatrix (pairs : List (ℕ × ℕ × ℚ)) : ℕ → ℕ → ℚ :=
  buildMatrix (list1 pairs) (list2 pairs) pairs

/-- The `(row_ind, col_ind)` cell list chosen by the assignment solver in `calc_score`. -/
def hungarianAssign (pairs : List (ℕ × ℕ × ℚ)) : List (ℕ × ℕ) :=
  lsa (pairsMatrix pairs) (list1 pairs).length (list2 pairs).length

/-- Embeds `used_matches = [(list1[x], list2[y]) for (x, y) in zip(row_ind, col_ind)]`. -/
def usedMatches (pairs : List (ℕ × ℕ × ℚ)) : List (ℕ × ℕ) :=
  (hungarianAssign pairs).map (fun p => ((list1 pairs).getD p.1 0, (list2 pairs).getD p.2 0))

/-- Embeds `score = len(row_ind) - matrix[row_ind, col_ind].sum()` before normalization. -/
def rawScore (pairs : List (ℕ × ℕ × ℚ)) : ℚ :=
  ((hungarianAssign pairs).length : ℚ) - assignCost (pairsMatrix pairs) (hungarianAssign pairs)

/-- `numpy.sum(spec[:, 1] ** 2)`: the sum of squared intensities of one spectrum. -/
def sumSquares (spec : PeakArray) : ℚ :=
  (spec.map (fun p => p.2 ^ 2)).sum

/-- Embeds `calc_score`: on a non-empty pair list, the normalized optimal-assignment
score together with `len(used_matches)`; on an empty pair list, `(0.0, 0)`. -/
def calc_score (pairs : List (ℕ × ℕ × ℚ)) (spec1 spec2 : PeakArray) : ℚ × ℕ :=
  if 0 < pairs.length then
    (rawScore pairs / max (sumSquares spec1) (sumSquares spec2), (usedMatches pairs).length)
  else
    (0, 0)

/-- The exceptions `get_peaks_arrays` can raise: the `ValueError` from Python's builtin
`max()` on an empty sequence, and the `AssertionError` of the explicit normalization
check `assert max(spec[:, 1]) <= 1`. -/
inductive ScoreErr : Type
  | emptyMax
  | notNormalized
  deriving DecidableEq

/-- Embeds the per-spectrum part of `get_peaks_arrays`: `max(spec[:, 1])` (raising on an
empty array) followed by `assert max(...) <= 1`. -/
def checkPeaks (spec : PeakArray) : Except ScoreErr Unit :=
  match (spec.map (fun p => p.2)).max? with
  | none => Except.error ScoreErr.emptyMax
  | some m => if m ≤ 1 then Except.ok () else Except.error ScoreErr.notNormalized

/-- Embeds `CosineHungarian.__call__`: validate both peak arrays, find the matching
pairs at the configured tolerance with `shift=0.0`, sort them by decreasing weight,
and compute the score. -/
def cosineHungarian (tolerance : ℚ) (spectrum1 spectrum2 : PeakArray) :
    Except ScoreErr (ℚ × ℕ) :=
  match checkPeaks spectrum1 with
  | Except.error e => Except.error e
  | Except.ok _ =>
    match checkPeaks spectrum2 with
    | Except.error e => Except.error e
    | Except.ok _ =>
      Except.ok (calc_score (sortPairs (find_pairs_numba spectrum1 spectrum2 tolerance 0))
        spectrum1 spectrum2)

/-- The names of the registered filter functions, i.e. the distinct entries of the
`ALL_FILTERS` list of `SpectrumProcessor.py` (identity of a filter is its name). -/
inductive FilterName : Type
  | make_charge_int | add_compound_name | derive_adduct_from_name | derive_formula_from_name
  | clean_compound_name | interpret_pepmass | add_precursor_mz | add_retention_index
  | add_retention_time | derive_ionmode | correct_charge | require_precursor_mz
  | add_parent_mass | harmonize_undefined_inchikey | harmonize_undefined_inchi
  | harmonize_undefined_smiles | repair_inchi_inchikey_smiles
  | repair_parent_mass_match_smiles_wrapper | require_correct_ionmode
  | require_precursor_below_mz | require_parent_mass_match_smiles | require_valid_annotation
  | normalize_intensities | select_by_intensity | select_by_mz | select_by_relative_intensity
  | remove_peaks_around_precursor_mz | remove_peaks_outside_top_k
  | require_minimum_number_of_peaks | require_minimum_of_high_peaks | add_fingerprint
  | add_losses
  deriving DecidableEq

/-- Embeds the module-level `ALL_FILTERS` list, in source order, including the
deliberate second occurrences of `derive_adduct_from_name` and
`derive_formula_from_name` ("run again"). -/
def ALL_FILTERS : List FilterName :=
  [FilterName.make_charge_int, FilterName.add_compound_name,
   FilterName.derive_adduct_from_name, FilterName.derive_formula_from_name,
   FilterName.clean_compound_name, FilterName.interpret_pepmass, FilterName.add_precursor_mz,
   FilterName.add_retention_index, FilterName.add_retention_time, FilterName.derive_ionmode,
   FilterName.correct_charge,
   FilterName.derive_adduct_from_name,
   FilterName.derive_formula_from_name,
   FilterName.require_precursor_mz, FilterName.add_parent_mass,
   FilterName.harmonize_undefined_inchikey, FilterName.harmonize_undefined_inchi,
   FilterName.harmonize_undefined_smiles, FilterName.repair_inchi_inchikey_smiles,
   FilterName.repair_parent_mass_match_smiles_wrapper, FilterName.require_correct_ionmode,
   FilterName.require_precursor_below_mz, FilterName.require_parent_mass_match_smiles,
   FilterName.require_valid_annotation, FilterName.normalize_intensities,
   FilterName.select_by_intensity, FilterName.select_by_mz,
   FilterName.select_by_relative_intensity, FilterName.remove_peaks_around_precursor_mz,
   FilterName.remove_peaks_outside_top_k, FilterName.require_minimum_number_of_peaks,
   FilterName.require_minimum_of_high_peaks, FilterName.add_fingerprint, FilterName.add_losses]

/-- Keyword arguments bound to a filter by a tuple spec, as an association list. -/
abbrev FilterArgs : Type := List (String × String)

/-- An element of the pipeline's `self.filters` list: either a registry function
(a member of `ALL_FILTERS`, identified by its name) or the fresh
`lambda spectrum: filter_func(spectrum, **filter_args)` closure appended by the
tuple branch of `add_filter`, which is NOT a member of `ALL_FILTERS`. -/
inductive PipelineElem : Type
  | func (name : FilterName)
  | lam (name : FilterName) (args : FilterArgs)
  deriving DecidableEq

/-- An argument to `add_filter`: a bare name string or a `(name, args)` tuple. -/
inductive FilterSpec : Type
  | str (name : FilterName)
  | tup (name : FilterName) (args : FilterArgs)
  deriving DecidableEq

/-- `ALL_FILTERS.index(f)`: first position of the function object `f` in `ALL_FILTERS`,
or the `ValueError` (modelled as `none`) when `f` is a bound-argument lambda, which is
never an element of `ALL_FILTERS`. -/
def indexInAllFilters : PipelineElem → Option ℕ
  | PipelineElem.func n => some (ALL_FILTERS.indexOf n)
  | PipelineElem.lam _ _ => none

/-- The sort key used by `self.filters.sort(key=lambda f: ALL_FILTERS.index(f))`,
defined on the elements where the lookup succeeds. -/
def elemKey : PipelineElem → ℕ
  | PipelineElem.func n => ALL_FILTERS.indexOf n
  | PipelineElem.lam _ _ => 0

/-- Comparison of pipeline elements by their position in `ALL_FILTERS`. -/
def elemLE (a b : PipelineElem) : Prop := elemKey a ≤ elemKey b

instance : DecidableRel elemLE := fun a b => Nat.decLe (elemKey a) (elemKey b)

instance : IsTotal PipelineElem elemLE := ⟨fun a b => Nat.le_total (elemKey a) (elemKey b)⟩

instance : IsTrans PipelineElem elemLE := ⟨fun _ _ _ => Nat.le_trans⟩

/-- The error raised by `add_filter`: `list.sort(key=ALL_FILTERS.index)` raises
`ValueError` when a list element (the bound-argument lambda) is not in `ALL_FILTERS`. -/
inductive AddFilterError : Type
  | lambdaNotInAllFilters
  deriving DecidableEq

/-- Embeds `self.filters.sort(key=lambda f: ALL_FILTERS.index(f))`: the key is computed
for every element first (raising `ValueError` if any lookup fails), then the list is
stably sorted by key. -/
def sortStep (fs : List PipelineElem) : Except AddFilterError (List PipelineElem) :=
  if fs.all (fun e => (indexInAllFilters e).isSome) then
    Except.ok (fs.insertionSort elemLE)
  else
    Except.error AddFilterError.lambdaNotInAllFilters

/-- Embeds `SpectrumProcessor.add_filter`: append the bound filter (registry function
for a string spec, fresh lambda for a tuple spec), then re-sort the whole working
list by position in `ALL_FILTERS`. -/
def add_filter (fs : List PipelineElem) (spec : FilterSpec) :
    Except AddFilterError (List PipelineElem) :=
  match spec with
  | FilterSpec.str n => sortStep (fs ++ [PipelineElem.func n])
  | FilterSpec.tup n args => sortStep (fs ++ [PipelineElem.lam n args])

/-- Embeds `MINIMAL_FILTERS`. -/
def MINIMAL_FILTERS : List FilterName :=
  [FilterName.make_charge_int, FilterName.interpret_pepmass, FilterName.derive_ionmode,
   FilterName.correct_charge]

/-- Embeds `BASIC_FILTERS` (note: it lists `interpret_pepmass` a second time). -/
def BASIC_FILTERS : List FilterName :=
  MINIMAL_FILTERS ++
    [FilterName.derive_adduct_from_name, FilterName.derive_formula_from_name,
     FilterName.clean_compound_name, FilterName.interpret_pepmass,
     FilterName.add_precursor_mz]

/-- Embeds `DEFAULT_FILTERS`. -/
def DEFAULT_FILTERS : List FilterName :=
  BASIC_FILTERS ++
    [FilterName.require_precursor_mz, FilterName.add_parent_mass,
     FilterName.harmonize_undefined_inchikey, FilterName.harmonize_undefined_inchi,
     FilterName.harmonize_undefined_smiles, FilterName.repair_inchi_inchikey_smiles,
     FilterName.repair_parent_mass_match_smiles_wrapper, FilterName.require_correct_ionmode,
     FilterName.normalize_intensities]

/-- Embeds `FULLY_ANNOTATED_PROCESSING`. -/
def FULLY_ANNOTATED_PROCESSING : List FilterName :=
  DEFAULT_FILTERS ++
    [FilterName.require_parent_mass_match_smiles, FilterName.require_valid_annotation]

/-- The valid preset pipeline names (keys of `PREDEFINED_PIPELINES`). -/
inductive PipelineName : Type
  | minimal | basic | default | fully_annotated
  deriving DecidableEq

/-- Embeds the `PREDEFINED_PIPELINES` mapping. -/
def PREDEFINED_PIPELINES : PipelineName → List FilterName
  | PipelineName.minimal => MINIMAL_FILTERS
  | PipelineName.basic => BASIC_FILTERS
  | PipelineName.default => DEFAULT_FILTERS
  | PipelineName.fully_annotated => FULLY_ANNOTATED_PROCESSING

/-- Embeds `SpectrumProcessor.__init__(processing_pipeline)`: start from an empty
filter list and `add_filter` each preset name in order. (An unknown pipeline name is
ruled out by typing; the `ValueError` branch of `__init__` is unreachable here.) -/
def SpectrumProcessor_init (p : PipelineName) : Except AddFilterError (List PipelineElem) :=
  (PREDEFINED_PIPELINES p).foldl
    (fun acc n =>
      match acc with
      | Except.error e => Except.error e
      | Except.ok fs => add_filter fs (FilterSpec.str n))
    (Except.ok [])

/-- Embeds `SpectrumProcessor.process_spectrum`: apply the bound filters in list
order to the spectrum, stopping and returning `None` as soon as a filter returns
`None`. A filter takes and returns an optional spectrum, as in Python where `None`
may flow in and each filter may return `None`. -/
def process_spectrum {σ : Type} (filters : List (Option σ → Option σ))
    (spectrum : Option σ) : Option σ :=
  match filters with
  | [] => spectrum
  | f :: rest =>
    match f spectrum with
    | none => none
    | some s => process_spectrum rest (some s)

/-- Modelled from the spec: the `Spectrum` class is external to the sources; per the
spec it is an ordered peak list together with an unordered mapping of string keys to
metadata values, with `get`/`set` access and `clone` producing a copy. -/
structure Spectrum : Type where
  peaks : PeakArray
  metadata : String → Option String

/-- `Spectrum.get(key)`: metadata lookup, `None` when absent. -/
def Spectrum.get (s : Spectrum) (k : String) : Option String := s.metadata k

/-- `Spectrum.set(key, value)`: metadata update at one key. -/
def Spectrum.set (s : Spectrum) (k : String) (v : String) : Spectrum :=
  { s with metadata := fun q => if q = k then some v else s.metadata q }

/-- Embeds Python `str.rstrip()` (trailing-whitespace removal). -/
def pyRstrip (s : String) : String := s.trimRight

/-- Embeds `derive_smiles_from_inchi`. Modelled from the spec: `is_valid_smiles`,
`is_valid_inchi` and `convert_inchi_to_smiles` live in
`matchms.filtering.filter_utils.metadata_utils`, which is not among the sources; the
spec treats identifier conversion as opaque pure functions, so they are abstract
parameters here. Python truthiness of the conversion result (`if smiles:`) is
modelled by `Option` plus a non-emptiness test. `spectrum_in.clone()` is a value
copy in this pure embedding. -/
def derive_smiles_from_inchi
    (is_valid_smiles : Option String → Bool) (is_valid_inchi : Option String → Bool)
    (convert_inchi_to_smiles : Option String → Option String)
    (spectrum_in : Option Spectrum) : Option Spectrum :=
  match spectrum_in with
  | none => none
  | some sp =>
    let spectrum := sp
    let inchi := spectrum.get "inchi"
    let smiles := spectrum.get "smiles"
    if !(is_valid_smiles smiles) && is_valid_inchi inchi then
      match convert_inchi_to_smiles inchi with
      | some s =>
        if s ≠ "" then some (spectrum.set "smiles" (pyRstrip s)) else some spectrum
      | none => some spectrum
    else
      some spectrum

/-- Folding `add_filter` over a list of filter specs, propagating a raised error, as in
repeated `add_filter` calls on one `SpectrumProcessor` instance. -/
def runAddFilters (init : Except AddFilterError (List PipelineElem))
    (specs : List FilterSpec) : Except AddFilterError (List PipelineElem) :=
  specs.foldl
    (fun acc sp =>
      match acc with
      | Except.error e => Except.error e
      | Except.ok fs => add_filter fs sp)
    init

/-- Running the pipeline on a prefix that survives continues with the surviving value. -/
theorem process_spectrum_append {σ : Type} (l1 l2 : List (Option σ → Option σ))
    (s : Option σ) (x : σ) (h : process_spectrum l1 s = some x) :
    process_spectrum (l1 ++ l2) s = process_spectrum l2 (some x) := by
  induction l1 generalizing s with
  | nil =>
    simp only [process_spectrum] at h
    simp [h]
  | cons f t ih =>
    simp only [process_spectrum] at h ⊢
    cases hf : f s with
    | none => rw [hf] at h; exact absurd h (by simp [process_spectrum])
    | some y =>
      rw [hf] at h
      exact ih (some y) h

/-- C4: if the filter at position `k` of the pipeline (the one after the prefix `pre`)
returns the rejection signal `none`, then `process_spectrum` returns `none` as the final
result, and no filter after position `k` is invoked: the result is `none` whatever the
filters after position `k` are. -/
theorem c4_short_circuit {σ : Type} (pre post : List (Option σ → Option σ))
    (f : Option σ → Option σ) (s : Option σ) (x : σ)
    (h1 : process_spectrum pre s = some x) (h2 : f (some x) = none) :
    process_spectrum (pre ++ f :: post) s = none ∧
      ∀ post2 : List (Option σ → Option σ), process_spectrum (pre ++ f :: post2) s = none := by
  have key : ∀ post2 : List (Option σ → Option σ),
      process_spectrum (pre ++ f :: post2) s = none := by
    intro post2
    rw [process_spectrum_append pre (f :: post2) s x h1]
    simp [process_spectrum, h2]
  exact ⟨key post, key⟩

/-- C4 witness: a concrete three-filter pipeline over `ℕ` whose middle filter rejects. -/
theorem c4_short_circuit_witness :
    process_spectrum
      ([fun o => o] ++ (fun _ => (none : Option ℕ)) :: [fun _ => some 5]) (some 3) = none :=
  (c4_short_circuit [fun o => o] [fun _ => some 5] (fun _ => none) (some 3) 3 rfl rfl).1

/-- C10: `derive_smiles_from_inchi` maps the rejection signal to itself, and on a real
spectrum returns a spectrum with identical peaks whose metadata agrees with the input
at every key other than "smiles"; the "smiles" entry changes only if the input smiles
is not valid and the input inchi is valid. Mutation of the Python input object is not
expressible in this pure embedding; `clone()` is modelled as a value copy, and this
theorem states the resulting frame property. -/
theorem c10_derive_smiles_frame (is_valid_smiles is_valid_inchi : Option String → Bool)
    (convert_inchi_to_smiles : Option String → Option String) (sp : Spectrum) :
    derive_smiles_from_inchi is_valid_smiles is_valid_inchi convert_inchi_to_smiles none
        = none ∧
      ∃ out : Spectrum,
        derive_smiles_from_inchi is_valid_smiles is_valid_inchi convert_inchi_to_smiles
            (some sp) = some out ∧
          out.peaks = sp.peaks ∧
          (∀ k : String, k ≠ "smiles" → out.get k = sp.get k) ∧
          (out.get "smiles" ≠ sp.get "smiles" →
            is_valid_smiles (sp.get "smiles") = false ∧
              is_valid_inchi (sp.get "inchi") = true) := by
  refine ⟨rfl, ?_⟩
  unfold derive_smiles_from_inchi
  cases hvs : is_valid_smiles (sp.get "smiles") with
  | true =>
    refine ⟨sp, by simp [hvs], rfl, fun k _ => rfl, fun h => absurd rfl h⟩
  | false =>
    cases hvi : is_valid_inchi (sp.get "inchi") with
    | false =>
      refine ⟨sp, by simp [hvs, hvi], rfl, fun k _ => rfl, fun h => absurd rfl h⟩
    | true =>
      cases hcv : convert_inchi_to_smiles (sp.get "inchi") with
      | none =>
        refine ⟨sp, by simp [hvs, hvi, hcv], rfl, fun k _ => rfl, fun h => absurd rfl h⟩
      | some s =>
        by_cases hs : s ≠ ""
        · refine ⟨sp.set "smiles" (pyRstrip s), by simp [hvs, hvi, hcv, hs], rfl,
            ?_, fun _ => ⟨rfl, rfl⟩⟩
          intro k hk
          simp [Spectrum.set, Spectrum.get, hk]
        · refine ⟨sp, by simp [hvs, hvi, hcv, hs], rfl, fun k _ => rfl,
            fun h => absurd rfl h⟩

/-- C10 witness: the frame theorem applied to a concrete spectrum and collaborators. -/
theorem c10_derive_smiles_frame_witness :
    derive_smiles_from_inchi (fun _ => false) (fun _ => false) (fun _ => none) none = none :=
  (c10_derive_smiles_frame (fun _ => false) (fun _ => false) (fun _ => none)
    ⟨[], fun _ => none⟩).1

/-- C5 (evaluation of the code at the failing input): every `add_filter` call with a
`(name, args)` tuple spec raises: the appended bound-argument lambda is not an element
of `ALL_FILTERS`, so the re-sort key lookup `ALL_FILTERS.index(f)` fails with
`ValueError` for any working list and any tuple argument. -/
theorem c5_tuple_add_filter_raises (fs : List PipelineElem) (n : FilterName)
    (args : FilterArgs) :
    add_filter fs (FilterSpec.tup n args)
      = Except.error AddFilterError.lambdaNotInAllFilters := by
  simp [add_filter, sortStep, indexInAllFilters]

/-- Membership in the output of the peak matcher, characterized by the source's
absolute-difference test and intensity product. -/
theorem find_pairs_mem_iff (spec1 spec2 : PeakArray) (tolerance shift : ℚ)
    (i j : ℕ) (w : ℚ) :
    (i, j, w) ∈ find_pairs_numba spec1 spec2 tolerance shift ↔
      i < spec1.length ∧ j < spec2.length ∧
        |(spec2.getD j (0, 0)).1 - (spec1.getD i (0, 0)).1 + shift| ≤ tolerance ∧
        w = (spec1.getD i (0, 0)).2 * (spec2.getD j (0, 0)).2 := by
  simp only [find_pairs_numba, List.mem_flatMap, List.mem_map, List.mem_filter,
    List.mem_range, decide_eq_true_eq, Prod.mk.injEq]
  constructor
  · rintro ⟨idx, hidx, m, ⟨hm, habs⟩, hi, hj, hw⟩
    subst hi; subst hj
    exact ⟨hidx, hm, habs, hw.symm⟩
  · rintro ⟨hi, hj, habs, hw⟩
    exact ⟨i, hi, j, ⟨hj, habs⟩, rfl, rfl, hw.symm⟩

/-- `countP` distributes over `flatMap` as a sum of per-chunk counts. -/
theorem countP_flatMap {α β : Type} (l : List α) (f : α → List β) (p : β → Bool) :
    (l.flatMap f).countP p = (l.map (fun a => (f a).countP p)).sum := by
  induction l with
  | nil => simp
  | cons a t ih => simp [List.flatMap_cons, List.countP_append, ih]
/-- Summing the indicator of equality over a list counts the occurrences. -/
theorem sum_ite_eq_count (i : ℕ) (l : List ℕ) :
    (l.map (fun idx => if idx = i then (1 : ℕ) else 0)).sum = l.count i := by
  induction l with
  | nil => simp
  | cons a t ih =>
    by_cases h : a = i
    · simp [h, ih, List.count_cons]
      omega
    · simp [h, ih, List.count_cons]

/-- C3: the matcher emits a pair `(i, j, w)` precisely when `i` and `j` are valid peak
indices with `|posB_j - posA_i + shift| <= tolerance` and `w` is the intensity product,
and it emits at most one pair per index pair `(i, j)` (hence exactly one for each
satisfying `(i, j)`); indices may still repeat across different pairs. This holds for
every tolerance and shift, in particular every `tolerance ≥ 0`. -/
theorem c3_find_pairs_characterization (spec1 spec2 : PeakArray) (tolerance shift : ℚ)
    (i j : ℕ) (w : ℚ) :
    ((i, j, w) ∈ find_pairs_numba spec1 spec2 tolerance shift ↔
      i < spec1.length ∧ j < spec2.length ∧
        |(spec2.getD j (0, 0)).1 - (spec1.getD i (0, 0)).1 + shift| ≤ tolerance ∧
        w = (spec1.getD i (0, 0)).2 * (spec2.getD j (0, 0)).2) ∧
    (find_pairs_numba spec1 spec2 tolerance shift).countP
        (fun p => decide (p.1 = i ∧ p.2.1 = j)) ≤ 1 := by
  refine ⟨find_pairs_mem_iff spec1 spec2 tolerance shift i j w, ?_⟩
  unfold find_pairs_numba
  rw [countP_flatMap]
  have hrow : ∀ idx ∈ List.range spec1.length,
      (((List.range spec2.length).filter
          (fun m => decide (|(spec2.getD m (0, 0)).1 - (spec1.getD idx (0, 0)).1 + shift|
            ≤ tolerance))).map
        (fun m => (idx, m, (spec1.getD idx (0, 0)).2 * (spec2.getD m (0, 0)).2))).countP
          (fun p => decide (p.1 = i ∧ p.2.1 = j))
        ≤ if idx = i then 1 else 0 := by
    intro idx _
    rw [List.countP_map]
    by_cases hidx : idx = i
    · subst hidx
      simp only [if_pos rfl]
      have hsub : List.Sublist
          ((List.range spec2.length).filter
            (fun m => decide (|(spec2.getD m (0, 0)).1 - (spec1.getD idx (0, 0)).1 + shift|
              ≤ tolerance)))
          (List.range spec2.length) := List.filter_sublist _
      refine le_trans (hsub.countP_le _) ?_
      have heq : ((fun p : ℕ × ℕ × ℚ => decide (p.1 = idx ∧ p.2.1 = j)) ∘
          (fun m => (idx, m, (spec1.getD idx (0, 0)).2 * (spec2.getD m (0, 0)).2)))
          = fun m : ℕ => m == j := by
        funext m
        by_cases h : m = j <;> simp [h]
      rw [heq]
      have hc : (List.range spec2.length).countP (fun m => m == j)
          = (List.range spec2.length).count j := (List.count_eq_countP ..).symm
      rw [hc]
      exact List.nodup_iff_count_le_one.1 (List.nodup_range _) j
    · rw [if_neg hidx, Nat.le_zero, List.countP_eq_zero]
      intro m _
      simp [Function.comp, hidx]
  refine le_trans (List.sum_le_sum hrow) ?_
  rw [sum_ite_eq_count i]
  exact List.nodup_iff_count_le_one.1 (List.nodup_range _) i

/-- Soundness of the enumeration: every enumerated choice is an injective sequence. -/
theorem mem_injections (r c : ℕ) (t : List ℕ) (h : t ∈ injections r c) :
    t.length = r ∧ t.Nodup ∧ ∀ x ∈ t, x < c := by
  induction r generalizing t with
  | zero =>
    simp only [injections, List.mem_singleton] at h
    subst h
    simp
  | succ r ih =>
    simp only [injections, List.mem_flatMap, List.mem_map, List.mem_filter, List.mem_range,
      decide_eq_true_eq] at h
    obtain ⟨j, hj, u, ⟨hu, hnotin⟩, rfl⟩ := h
    obtain ⟨hlen, hnd, hbound⟩ := ih u hu
    refine ⟨by simp [hlen], List.nodup_cons.2 ⟨hnotin, hnd⟩, ?_⟩
    intro x hx
    rcases List.mem_cons.1 hx with rfl | hx
    · exact hj
    · exact hbound x hx

/-- Completeness of the enumeration: every injective sequence is enumerated. -/
theorem injections_complete (c : ℕ) (t : List ℕ) (hnd : t.Nodup) (hb : ∀ x ∈ t, x < c) :
    t ∈ injections t.length c := by
  induction t with
  | nil => simp [injections]
  | cons j u ih =>
    have hnd' := List.nodup_cons.1 hnd
    simp only [List.length_cons, injections, List.mem_flatMap, List.mem_map, List.mem_filter,
      decide_eq_true_eq, List.mem_range]
    exact ⟨j, hb j (List.mem_cons_self j u), u,
      ⟨ih hnd'.2 (fun x hx => hb x (List.mem_cons_of_mem j hx)), hnd'.1⟩, rfl⟩

/-- The enumeration is inhabited whenever an injective choice exists at all. -/
theorem injections_has_mem (r c : ℕ) (h : r ≤ c) : ∃ t, t ∈ injections r c := by
  refine ⟨List.range r, ?_⟩
  have hmem := injections_complete c (List.range r) (List.nodup_range r)
    (fun x hx => lt_of_lt_of_le (List.mem_range.1 hx) h)
  simpa [List.length_range] using hmem

/-- `argminBy` on a non-empty list returns a value. -/
theorem argminBy_isSome {α : Type} (f : α → ℚ) (x : α) (t : List α) :
    ∃ a, argminBy f (x :: t) = some a := by
  simp only [argminBy]
  cases argminBy f t with
  | none => exact ⟨x, rfl⟩
  | some b =>
    by_cases hfb : f x ≤ f b
    · refine ⟨x, ?_⟩
      show (if f x ≤ f b then some x else some b) = some x
      rw [if_pos hfb]
    · refine ⟨b, ?_⟩
      show (if f x ≤ f b then some x else some b) = some b
      rw [if_neg hfb]

/-- `argminBy` returns `none` only on the empty list. -/
theorem argminBy_eq_none {α : Type} (f : α → ℚ) (l : List α)
    (h : argminBy f l = none) : l = [] := by
  cases l with
  | nil => rfl
  | cons x t =>
    obtain ⟨a, ha⟩ := argminBy_isSome f x t
    rw [ha] at h
    cases h

/-- A value returned by `argminBy` is a member of the list attaining the minimum. -/
theorem argminBy_spec {α : Type} (f : α → ℚ) (l : List α) (a : α)
    (h : argminBy f l = some a) : a ∈ l ∧ ∀ b ∈ l, f a ≤ f b := by
  induction l generalizing a with
  | nil => cases h
  | cons x t ih =>
    simp only [argminBy] at h
    cases hrec : argminBy f t with
    | none =>
      rw [hrec] at h
      cases h
      have ht : t = [] := argminBy_eq_none f t hrec
      subst ht
      exact ⟨List.mem_singleton.2 rfl, by intro b hb; rw [List.mem_singleton.1 hb]⟩
    | some b =>
      rw [hrec] at h
      have hh : (if f x ≤ f b then some x else some b) = some a := h
      obtain ⟨hbmem, hbmin⟩ := ih b hrec
      by_cases hfb : f x ≤ f b
      · rw [if_pos hfb] at hh
        cases hh
        refine ⟨List.mem_cons_self x t, ?_⟩
        intro y hy
        rcases List.mem_cons.1 hy with rfl | hy
        · exact le_refl _
        · exact le_trans hfb (hbmin y hy)
      · rw [if_neg hfb] at hh
        cases hh
        refine ⟨List.mem_cons_of_mem x hbmem, ?_⟩
        intro y hy
        rcases List.mem_cons.1 hy with rfl | hy
        · exact le_of_lt (lt_of_not_le hfb)
        · exact hbmin y hy

/-- In the tall-or-square case, `lsa` picks a minimizing injective column choice. -/
theorem lsa_of_le (m : ℕ → ℕ → ℚ) (r c : ℕ) (h : r ≤ c) :
    ∃ t, t ∈ injections r c ∧ lsa m r c = (List.range r).zip t ∧
      ∀ u ∈ injections r c,
        assignCost m ((List.range r).zip t) ≤ assignCost m ((List.range r).zip u) := by
  obtain ⟨t0, ht0⟩ := injections_has_mem r c h
  cases hlist : injections r c with
  | nil =>
    rw [hlist] at ht0
    exact absurd ht0 (List.not_mem_nil t0)
  | cons x u =>
    obtain ⟨a, ha⟩ := argminBy_isSome (fun t => assignCost m ((List.range r).zip t)) x u
    obtain ⟨hmem, hmin⟩ := argminBy_spec _ _ _ ha
    refine ⟨a, hmem, ?_, ?_⟩
    · unfold lsa
      rw [if_pos h, hlist, ha]
    · intro v hv
      exact hmin v hv

/-- In the wide case, `lsa` picks a minimizing injective row choice. -/
theorem lsa_of_gt (m : ℕ → ℕ → ℚ) (r c : ℕ) (h : ¬ r ≤ c) :
    ∃ t, t ∈ injections c r ∧ lsa m r c = t.zip (List.range c) ∧
      ∀ u ∈ injections c r,
        assignCost m (t.zip (List.range c)) ≤ assignCost m (u.zip (List.range c)) := by
  obtain ⟨t0, ht0⟩ := injections_has_mem c r (le_of_lt (lt_of_not_le h))
  cases hlist : injections c r with
  | nil =>
    rw [hlist] at ht0
    exact absurd ht0 (List.not_mem_nil t0)
  | cons x u =>
    obtain ⟨a, ha⟩ := argminBy_isSome (fun t => assignCost m (t.zip (List.range c))) x u
    obtain ⟨hmem, hmin⟩ := argminBy_spec _ _ _ ha
    refine ⟨a, hmem, ?_, ?_⟩
    · unfold lsa
      rw [if_neg h, hlist, ha]
    · intro v hv
      exact hmin v hv

/-- Shape of the assignment returned by `lsa`: row indices pairwise distinct and below
`r`, column indices pairwise distinct and below `c`. -/
theorem lsa_shape (m : ℕ → ℕ → ℚ) (r c : ℕ) :
    ((lsa m r c).map Prod.fst).Nodup ∧ ((lsa m r c).map Prod.snd).Nodup ∧
      ∀ p ∈ lsa m r c, p.1 < r ∧ p.2 < c := by
  by_cases h : r ≤ c
  · obtain ⟨t, htmem, heq, _⟩ := lsa_of_le m r c h
    obtain ⟨hlen, hnd, hb⟩ := mem_injections r c t htmem
    rw [heq]
    have hlr : (List.range r).length ≤ t.length := by simp [hlen]
    have hrl : t.length ≤ (List.range r).length := by simp [hlen]
    refine ⟨?_, ?_, ?_⟩
    · rw [List.map_fst_zip _ _ hlr]
      exact List.nodup_range r
    · rw [List.map_snd_zip _ _ hrl]
      exact hnd
    · intro p hp
      obtain ⟨h1, h2⟩ := List.of_mem_zip hp
      exact ⟨List.mem_range.1 h1, hb _ h2⟩
  · obtain ⟨t, htmem, heq, _⟩ := lsa_of_gt m r c h
    obtain ⟨hlen, hnd, hb⟩ := mem_injections c r t htmem
    rw [heq]
    have hlr : t.length ≤ (List.range c).length := by simp [hlen]
    have hrl : (List.range c).length ≤ t.length := by simp [hlen]
    refine ⟨?_, ?_, ?_⟩
    · rw [List.map_fst_zip _ _ hlr]
      exact hnd
    · rw [List.map_snd_zip _ _ hrl]
      exact List.nodup_range c
    · intro p hp
      obtain ⟨h1, h2⟩ := List.of_mem_zip hp
      exact ⟨hb _ h1, List.mem_range.1 h2⟩

/-- Zipping a list with its image is mapping to pairs. -/
theorem zip_map_self (l : List ℕ) (m : ℕ → ℕ) :
    l.zip (l.map m) = l.map (fun i => (i, m i)) := by
  induction l with
  | nil => rfl
  | cons a t ih => simp [ih]

/-- Zipping an image with the list itself is mapping to pairs. -/
theorem map_zip_self (l : List ℕ) (m : ℕ → ℕ) :
    (l.map m).zip l = l.map (fun j => (m j, j)) := by
  induction l with
  | nil => rfl
  | cons a t ih => simp [ih]

/-- C1: the assignment chosen in `calc_score` is an exact optimum of the linear sum
assignment problem over the cost matrix on the distinct A-indices and distinct
B-indices: its total cost is at most the total cost of every one-to-one matching on
the smaller dimension (rows into columns when rows are fewer or equal, columns into
rows otherwise). In particular no greedy choice with strictly worse total cost is
ever returned. Stated for every pair list, hence for every non-empty one. -/
theorem c1_assignment_optimal (pairs : List (ℕ × ℕ × ℚ)) :
    ((list1 pairs).length ≤ (list2 pairs).length →
      ∀ m : ℕ → ℕ,
        (∀ i, i < (list1 pairs).length → m i < (list2 pairs).length) →
        (∀ i j, i < (list1 pairs).length → j < (list1 pairs).length → m i = m j → i = j) →
        assignCost (pairsMatrix pairs) (hungarianAssign pairs) ≤
          assignCost (pairsMatrix pairs)
            ((List.range (list1 pairs).length).map (fun i => (i, m i)))) ∧
    ((list2 pairs).length < (list1 pairs).length →
      ∀ m : ℕ → ℕ,
        (∀ j, j < (list2 pairs).length → m j < (list1 pairs).length) →
        (∀ i j, i < (list2 pairs).length → j < (list2 pairs).length → m i = m j → i = j) →
        assignCost (pairsMatrix pairs) (hungarianAssign pairs) ≤
          assignCost (pairsMatrix pairs)
            ((List.range (list2 pairs).length).map (fun j => (m j, j)))) := by
  constructor
  · intro hrc m hmb hminj
    obtain ⟨t, htmem, heq, hmin⟩ := lsa_of_le (pairsMatrix pairs)
      (list1 pairs).length (list2 pairs).length hrc
    have hσ : (List.range (list1 pairs).length).map m ∈
        injections (list1 pairs).length (list2 pairs).length := by
      have hnd : ((List.range (list1 pairs).length).map m).Nodup := by
        refine List.Nodup.map_on ?_ (List.nodup_range _)
        intro x hx y hy hxy
        exact hminj x y (List.mem_range.1 hx) (List.mem_range.1 hy) hxy
      have hb : ∀ x ∈ (List.range (list1 pairs).length).map m,
          x < (list2 pairs).length := by
        intro x hx
        obtain ⟨i, hi, rfl⟩ := List.mem_map.1 hx
        exact hmb i (List.mem_range.1 hi)
      have := injections_complete (list2 pairs).length _ hnd hb
      simpa [List.length_map, List.length_range] using this
    have hle := hmin _ hσ
    rw [zip_map_self] at hle
    unfold hungarianAssign
    rw [heq]
    exact hle
  · intro hrc m hmb hminj
    obtain ⟨t, htmem, heq, hmin⟩ := lsa_of_gt (pairsMatrix pairs)
      (list1 pairs).length (list2 pairs).length (not_le.2 hrc)
    have hσ : (List.range (list2 pairs).length).map m ∈
        injections (list2 pairs).length (list1 pairs).length := by
      have hnd : ((List.range (list2 pairs).length).map m).Nodup := by
        refine List.Nodup.map_on ?_ (List.nodup_range _)
        intro x hx y hy hxy
        exact hminj x y (List.mem_range.1 hx) (List.mem_range.1 hy) hxy
      have hb : ∀ x ∈ (List.range (list2 pairs).length).map m,
          x < (list1 pairs).length := by
        intro x hx
        obtain ⟨i, hi, rfl⟩ := List.mem_map.1 hx
        exact hmb i (List.mem_range.1 hi)
      have := injections_complete (list1 pairs).length _ hnd hb
      simpa [List.length_map, List.length_range] using this
    have hle := hmin _ hσ
    rw [map_zip_self] at hle
    unfold hungarianAssign
    rw [heq]
    exact hle

/-- C1 witness: the optimality inequality instantiated at the concrete candidate list
`[(0, 0, 1)]` and the matching sending row 0 to column 0. -/
theorem c1_assignment_optimal_witness :
    assignCost (pairsMatrix [(0, 0, 1)]) (hungarianAssign [(0, 0, 1)]) ≤
      assignCost (pairsMatrix [(0, 0, 1)])
        ((List.range (list1 [(0, 0, 1)]).length).map (fun i => (i, i))) := by
  have h := (c1_assignment_optimal [(0, 0, 1)]).1 (by decide)
    (fun i => i) (fun i hi => by simpa using hi) (fun i j _ _ hij => hij)
  exact h

/-- Counting minus total cost equals the summed per-cell gains `1 - cost`. -/
theorem length_sub_sum {α : Type} (L : List α) (f : α → ℚ) :
    (L.length : ℚ) - (L.map f).sum = (L.map (fun x => 1 - f x)).sum := by
  induction L with
  | nil => simp
  | cons a t ih =>
    simp only [List.length_cons, List.map_cons, List.sum_cons]
    push_cast
    linarith [ih]

/-- Every cell of the folded matrix is either still the initial value or the value
`1 - weight` written by some pair mapping to that cell. -/
theorem buildMatrix_cases (l1 l2 : List ℕ) (pairs : List (ℕ × ℕ × ℚ))
    (m0 : ℕ → ℕ → ℚ) (i j : ℕ) :
    pairs.foldl (fun m p => writeEntry m l1 l2 p) m0 i j = m0 i j ∨
      ∃ p, p ∈ pairs ∧ i = l1.indexOf p.1 ∧ j = l2.indexOf p.2.1 ∧
        pairs.foldl (fun m p => writeEntry m l1 l2 p) m0 i j = 1 - p.2.2 := by
  induction pairs generalizing m0 with
  | nil => left; rfl
  | cons a t ih =>
    simp only [List.foldl_cons]
    rcases ih (writeEntry m0 l1 l2 a) with hcase | ⟨p, hp, hi, hj, hval⟩
    · rw [hcase]
      unfold writeEntry
      by_cases hc : i = l1.indexOf a.1 ∧ j = l2.indexOf a.2.1
      · right
        exact ⟨a, List.mem_cons_self a t, hc.1, hc.2, by rw [if_pos hc]⟩
      · left
        rw [if_neg hc]
    · right
      exact ⟨p, List.mem_cons_of_mem a hp, hi, hj, hval⟩

/-- Specialization of `buildMatrix_cases` to the matrix of `calc_score`. -/
theorem pairsMatrix_cases (pairs : List (ℕ × ℕ × ℚ)) (i j : ℕ) :
    pairsMatrix pairs i j = 1 ∨
      ∃ p, p ∈ pairs ∧ i = (list1 pairs).indexOf p.1 ∧ j = (list2 pairs).indexOf p.2.1 ∧
        pairsMatrix pairs i j = 1 - p.2.2 :=
  buildMatrix_cases (list1 pairs) (list2 pairs) pairs (fun _ _ => 1) i j

/-- The first index of any matching pair is among the distinct A-indices. -/
theorem fst_mem_list1 {pairs : List (ℕ × ℕ × ℚ)} {p : ℕ × ℕ × ℚ} (hp : p ∈ pairs) :
    p.1 ∈ list1 pairs := by
  unfold list1
  rw [List.mem_dedup]
  exact List.mem_map_of_mem _ hp

/-- The second index of any matching pair is among the distinct B-indices. -/
theorem snd_mem_list2 {pairs : List (ℕ × ℕ × ℚ)} {p : ℕ × ℕ × ℚ} (hp : p ∈ pairs) :
    p.2.1 ∈ list2 pairs := by
  unfold list2
  rw [List.mem_dedup]
  exact List.mem_map_of_mem _ hp

/-- The distinct A-index list has no duplicates. -/
theorem list1_nodup (pairs : List (ℕ × ℕ × ℚ)) : (list1 pairs).Nodup :=
  List.nodup_dedup _

/-- The distinct B-index list has no duplicates. -/
theorem list2_nodup (pairs : List (ℕ × ℕ × ℚ)) : (list2 pairs).Nodup :=
  List.nodup_dedup _

/-- `getD` inverts `indexOf` for members. -/
theorem getD_indexOf {l : List ℕ} {a : ℕ} (h : a ∈ l) : l.getD (l.indexOf a) 0 = a := by
  rw [List.getD_eq_getElem l 0 (List.indexOf_lt_length.2 h)]
  exact List.indexOf_get (List.indexOf_lt_length.2 h)

/-- C2: for a non-empty candidate list the returned pair is exactly
`(totalGain / max(sum of squared intensities), usedCount)` where
`totalGain = usedCount - totalCost` equals the summed per-matched-cell weights
`1 - cost(cell)`, and for an empty candidate list the result is exactly `(0, 0)`. -/
theorem c2_score_formula (pairs : List (ℕ × ℕ × ℚ)) (spec1 spec2 : PeakArray) :
    (pairs = [] → calc_score pairs spec1 spec2 = (0, 0)) ∧
    (pairs ≠ [] →
      calc_score pairs spec1 spec2 =
        ((((hungarianAssign pairs).length : ℚ) -
            assignCost (pairsMatrix pairs) (hungarianAssign pairs)) /
          max (sumSquares spec1) (sumSquares spec2),
         (usedMatches pairs).length) ∧
      ((hungarianAssign pairs).length : ℚ) -
          assignCost (pairsMatrix pairs) (hungarianAssign pairs) =
        ((hungarianAssign pairs).map (fun c => 1 - pairsMatrix pairs c.1 c.2)).sum ∧
      (usedMatches pairs).length = (hungarianAssign pairs).length) := by
  constructor
  · intro h
    subst h
    rfl
  · intro h
    refine ⟨?_, length_sub_sum _ _, List.length_map _ _⟩
    unfold calc_score rawScore
    rw [if_pos (List.length_pos.2 h)]

/-- C2 witness: the empty-candidate branch evaluated concretely. -/
theorem c2_score_formula_witness : calc_score [] [(0, 1)] [(0, 1)] = (0, 0) :=
  (c2_score_formula [] [(0, 1)] [(0, 1)]).1 rfl

/-- C7 amended: every pair `(a, b)` in `used_matches` has `a` among the distinct
candidate A-indices and `b` among the distinct candidate B-indices, and is either an
input candidate pair (its cell carrying that candidate's cost `1 - w`) or a filler
cell still carrying the initial cost `1` (contributing weight `0` to the score); it
need not itself be a candidate pair. -/
theorem c7_amended_used_matches (pairs : List (ℕ × ℕ × ℚ)) (a b : ℕ)
    (h : (a, b) ∈ usedMatches pairs) :
    a ∈ list1 pairs ∧ b ∈ list2 pairs ∧
      ((∃ w, (a, b, w) ∈ pairs ∧
          pairsMatrix pairs ((list1 pairs).indexOf a) ((list2 pairs).indexOf b) = 1 - w) ∨
        pairsMatrix pairs ((list1 pairs).indexOf a) ((list2 pairs).indexOf b) = 1) := by
  unfold usedMatches at h
  obtain ⟨⟨i, j⟩, hij, hab⟩ := List.mem_map.1 h
  obtain ⟨ha, hb⟩ := Prod.mk.injEq .. ▸ hab
  obtain ⟨-, -, hbounds⟩ := lsa_shape (pairsMatrix pairs) (list1 pairs).length
    (list2 pairs).length
  obtain ⟨hi, hj⟩ := hbounds _ hij
  have hmem1 : a ∈ list1 pairs := by
    rw [← ha, List.getD_eq_getElem _ 0 hi]
    exact List.getElem_mem hi
  have hmem2 : b ∈ list2 pairs := by
    rw [← hb, List.getD_eq_getElem _ 0 hj]
    exact List.getElem_mem hj
  have hia : (list1 pairs).indexOf a = i := by
    rw [← ha, List.getD_eq_getElem _ 0 hi]
    exact List.indexOf_getElem (list1_nodup pairs) i hi
  have hjb : (list2 pairs).indexOf b = j := by
    rw [← hb, List.getD_eq_getElem _ 0 hj]
    exact List.indexOf_getElem (list2_nodup pairs) j hj
  refine ⟨hmem1, hmem2, ?_⟩
  rw [hia, hjb]
  rcases pairsMatrix_cases pairs i j with hone | ⟨p, hp, hpi, hpj, hval⟩
  · right
    exact hone
  · left
    refine ⟨p.2.2, ?_, hval⟩
    have hpa : p.1 = a := by
      rw [← ha, hpi, getD_indexOf (fst_mem_list1 hp)]
    have hpb : p.2.1 = b := by
      rw [← hb, hpj, getD_indexOf (snd_mem_list2 hp)]
    have : p = (a, b, p.2.2) := by
      rw [← hpa, ← hpb]
    rw [← this]
    exact hp

/-- A left fold of `max` stays below any common upper bound. -/
theorem foldl_max_le (b : ℚ) (t : List ℚ) :
    ∀ a : ℚ, a ≤ b → (∀ x ∈ t, x ≤ b) → t.foldl max a ≤ b := by
  induction t with
  | nil =>
    intro a ha _
    exact ha
  | cons x u ih =>
    intro a ha h
    exact ih (max a x) (max_le ha (h x (List.mem_cons_self x u)))
      (fun y hy => h y (List.mem_cons_of_mem x hy))

/-- `checkPeaks` succeeds exactly on non-empty arrays with all intensities at most 1. -/
theorem checkPeaks_ok (spec : PeakArray) (hne : spec ≠ []) (h : ∀ p ∈ spec, p.2 ≤ 1) :
    checkPeaks spec = Except.ok () := by
  cases spec with
  | nil => exact absurd rfl hne
  | cons a t =>
    have hmax : ((a :: t).map (fun p => p.2)).max?
        = some ((t.map (fun p => p.2)).foldl max a.2) := rfl
    unfold checkPeaks
    rw [hmax]
    show (if List.foldl max a.2 (t.map (fun p => p.2)) ≤ 1 then Except.ok ()
      else Except.error ScoreErr.notNormalized) = Except.ok ()
    rw [if_pos]
    exact foldl_max_le 1 (t.map (fun p => p.2)) a.2 (h a (List.mem_cons_self a t))
      (by
        intro x hx
        obtain ⟨p, hp, rfl⟩ := List.mem_map.1 hx
        exact h p (List.mem_cons_of_mem a hp))

/-- C9 amended: on an empty peak array the scorer raises, but with the generic
`ValueError` of Python's builtin `max()` on an empty sequence (`ScoreErr.emptyMax`),
not with the explicit input-validation assertion (`ScoreErr.notNormalized`): if
spectrum 1 is empty this happens immediately; if spectrum 1 is non-empty and passes
its normalization assertion and spectrum 2 is empty, the same generic error is
raised for spectrum 2. The scorer never silently returns a score on empty input. -/
theorem c9_amended_empty_peaks (spec1 spec2 : PeakArray) (tolerance : ℚ) :
    (spec1 = [] → cosineHungarian tolerance spec1 spec2 = Except.error ScoreErr.emptyMax) ∧
    (spec1 ≠ [] → (∀ p ∈ spec1, p.2 ≤ 1) → spec2 = [] →
      cosineHungarian tolerance spec1 spec2 = Except.error ScoreErr.emptyMax) := by
  constructor
  · intro h
    subst h
    rfl
  · intro hne h1 h2
    subst h2
    unfold cosineHungarian
    rw [checkPeaks_ok spec1 hne h1]
    rfl

/-- C9 amended witness: an empty second spectrum next to a valid first spectrum. -/
theorem c9_amended_empty_peaks_witness :
    cosineHungarian (1/10) [((0 : ℚ), (1 : ℚ))] [] = Except.error ScoreErr.emptyMax :=
  (c9_amended_empty_peaks [((0 : ℚ), (1 : ℚ))] [] (1/10)).2 (by simp)
    (by
      intro p hp
      rw [List.mem_singleton.1 hp])
    rfl

/-- C9 counterexample: on empty-peaks input the scorer does fail, but the raised
error is the generic empty-sequence `ValueError` of `max()`, which is a different
error from the explicit input-validation assertion of `get_peaks_arrays`. -/
theorem c9_counterexample :
    cosineHungarian (1/10) [] [((0 : ℚ), (1 : ℚ))] = Except.error ScoreErr.emptyMax ∧
      ScoreErr.emptyMax ≠ ScoreErr.notNormalized := by
  exact ⟨rfl, by decide⟩

/-- When every element of the working list is a registry function, the re-sort
succeeds and returns the stable sort by canonical position. -/
theorem sortStep_allFunc (fs : List PipelineElem)
    (h : ∀ e ∈ fs, ∃ n, e = PipelineElem.func n) :
    sortStep fs = Except.ok (fs.insertionSort elemLE) := by
  have hall : fs.all (fun e => (indexInAllFilters e).isSome) = true := by
    rw [List.all_eq_true]
    intro e he
    obtain ⟨n, rfl⟩ := h e he
    rfl
  simp [sortStep, hall]

/-- Folding bare-name `add_filter` calls over a sorted all-function working list
succeeds and yields a canonically sorted permutation of the old and new filters. -/
theorem runAddFilters_str_ok (names : List FilterName) (fs : List PipelineElem)
    (hs : List.Sorted elemLE fs) (hf : ∀ e ∈ fs, ∃ n, e = PipelineElem.func n) :
    ∃ gs, runAddFilters (Except.ok fs) (names.map FilterSpec.str) = Except.ok gs ∧
      List.Sorted elemLE gs ∧ List.Perm gs (fs ++ names.map PipelineElem.func) ∧
      ∀ e ∈ gs, ∃ n, e = PipelineElem.func n := by
  induction names generalizing fs with
  | nil => exact ⟨fs, rfl, hs, by simp, hf⟩
  | cons n ns ih =>
    have hstep : add_filter fs (FilterSpec.str n)
        = Except.ok ((fs ++ [PipelineElem.func n]).insertionSort elemLE) := by
      unfold add_filter
      refine sortStep_allFunc _ ?_
      intro e he
      rcases List.mem_append.1 he with he | he
      · exact hf e he
      · exact ⟨n, List.mem_singleton.1 he⟩
    have hf' : ∀ e ∈ (fs ++ [PipelineElem.func n]).insertionSort elemLE,
        ∃ n2, e = PipelineElem.func n2 := by
      intro e he
      have hmem := (List.perm_insertionSort elemLE (fs ++ [PipelineElem.func n])).mem_iff.1 he
      rcases List.mem_append.1 hmem with he2 | he2
      · exact hf e he2
      · exact ⟨n, List.mem_singleton.1 he2⟩
    have hs' : List.Sorted elemLE ((fs ++ [PipelineElem.func n]).insertionSort elemLE) :=
      List.sorted_insertionSort elemLE _
    have hrun : runAddFilters (Except.ok fs) ((n :: ns).map FilterSpec.str)
        = runAddFilters
            (Except.ok ((fs ++ [PipelineElem.func n]).insertionSort elemLE))
            (ns.map FilterSpec.str) := by
      simp only [List.map_cons, runAddFilters, List.foldl_cons]
      rw [hstep]
    obtain ⟨gs, hgs, hgs_sorted, hgs_perm, hgs_f⟩ := ih _ hs' hf'
    refine ⟨gs, by rw [hrun]; exact hgs, hgs_sorted, ?_, hgs_f⟩
    refine hgs_perm.trans ?_
    have h1 : List.Perm ((fs ++ [PipelineElem.func n]).insertionSort elemLE)
        (fs ++ [PipelineElem.func n]) := List.perm_insertionSort elemLE _
    refine (h1.append_right (ns.map PipelineElem.func)).trans ?_
    rw [List.append_assoc]
    exact List.Perm.refl _

/-- `__init__` is the bare-name `add_filter` fold over the preset's names. -/
theorem SpectrumProcessor_init_eq (p : PipelineName) :
    SpectrumProcessor_init p
      = runAddFilters (Except.ok []) ((PREDEFINED_PIPELINES p).map FilterSpec.str) := by
  unfold SpectrumProcessor_init runAddFilters
  rw [List.foldl_map]

/-- C8 amended: after any constructor call followed by any sequence of bare-name
`add_filter` calls, the working list succeeds and is sorted by canonical position in
`ALL_FILTERS`, and it is a permutation of the full multiset of added names — it is NOT
de-duplicated: the 'basic' preset (hence also 'default' and 'fully_annotated', which
extend it) contains `interpret_pepmass` twice, while the 'minimal' preset happens to
contain each selected filter exactly once. -/
theorem c8_amended_sorted_not_dedup :
    (∀ (p : PipelineName) (adds : List FilterName),
      ∃ gs, runAddFilters (SpectrumProcessor_init p) (adds.map FilterSpec.str)
          = Except.ok gs ∧
        List.Sorted elemLE gs ∧
        List.Perm gs ((PREDEFINED_PIPELINES p ++ adds).map PipelineElem.func)) ∧
    (SpectrumProcessor_init PipelineName.basic).toOption.map
        (fun bs => bs.count (PipelineElem.func FilterName.interpret_pepmass)) = some 2 ∧
    (SpectrumProcessor_init PipelineName.minimal).toOption.map
        (fun ms => decide ms.Nodup) = some true := by
  refine ⟨?_, by decide, by decide⟩
  intro p adds
  have hcomb : runAddFilters (SpectrumProcessor_init p) (adds.map FilterSpec.str)
      = runAddFilters (Except.ok [])
          ((PREDEFINED_PIPELINES p ++ adds).map FilterSpec.str) := by
    rw [SpectrumProcessor_init_eq, List.map_append]
    unfold runAddFilters
    rw [List.foldl_append]
  obtain ⟨gs, h1, h2, h3, -⟩ := runAddFilters_str_ok (PREDEFINED_PIPELINES p ++ adds) []
    List.sorted_nil (by intro e he; cases he)
  exact ⟨gs, by rw [hcomb]; exact h1, h2, by simpa using h3⟩

/-- C8 counterexample: the 'basic' preset pipeline's working list contains the
`interpret_pepmass` filter twice, not exactly once — construction does not
de-duplicate. -/
theorem c8_counterexample_basic_duplicate :
    (SpectrumProcessor_init PipelineName.basic).toOption.map
        (fun bs => bs.count (PipelineElem.func FilterName.interpret_pepmass)) = some 2 ∧
      (2 : ℕ) ≠ 1 := by
  exact ⟨by decide, by decide⟩

/-- C6 counterexample: a negative intensity passes the code's only normalization check
(`max(intensities) <= 1`), and for the spectra `[(0, -1)]` and `[(0, 1)]` with
tolerance `0 ≥ 0` (non-empty, maximal intensities `-1 ≤ 1` and `1 ≤ 1`) the scorer
returns the score `-1`, which lies outside `[0, 1]`. -/
theorem c6_counterexample :
    cosineHungarian 0 [((0 : ℚ), (-1 : ℚ))] [((0 : ℚ), (1 : ℚ))] = Except.ok (-1, 1) ∧
      ¬(0 ≤ (-1 : ℚ)) ∧ ((-1 : ℚ) ≤ 1 ∧ (1 : ℚ) ≤ 1) ∧ (0 : ℚ) ≤ 0 := by
  refine ⟨?_, by norm_num, ⟨by norm_num, le_refl 1⟩, le_refl 0⟩
  have hfp : find_pairs_numba [((0 : ℚ), (-1 : ℚ))] [((0 : ℚ), (1 : ℚ))] 0 0
      = [(0, 0, -1)] := by
    norm_num [find_pairs_numba, List.range_succ, List.filter_cons, List.flatMap_cons,
      List.getD_cons_zero]
  have hsp : sortPairs [((0 : ℕ), (0 : ℕ), (-1 : ℚ))] = [(0, 0, -1)] := rfl
  have hl1 : list1 [((0 : ℕ), (0 : ℕ), (-1 : ℚ))] = [0] := rfl
  have hl2 : list2 [((0 : ℕ), (0 : ℕ), (-1 : ℚ))] = [0] := rfl
  have hassign : hungarianAssign [((0 : ℕ), (0 : ℕ), (-1 : ℚ))] = [(0, 0)] := rfl
  have hmat : pairsMatrix [((0 : ℕ), (0 : ℕ), (-1 : ℚ))] 0 0 = 2 := by
    norm_num [pairsMatrix, buildMatrix, writeEntry, hl1, hl2, List.foldl_cons,
      List.foldl_nil, List.indexOf_cons_self]
  have hraw : rawScore [((0 : ℕ), (0 : ℕ), (-1 : ℚ))] = -1 := by
    unfold rawScore
    rw [hassign]
    norm_num [assignCost, hmat]
  have hss1 : sumSquares [((0 : ℚ), (-1 : ℚ))] = 1 := by norm_num [sumSquares]
  have hss2 : sumSquares [((0 : ℚ), (1 : ℚ))] = 1 := by norm_num [sumSquares]
  have hused : (usedMatches [((0 : ℕ), (0 : ℕ), (-1 : ℚ))]).length = 1 := rfl
  have hcs : calc_score [((0 : ℕ), (0 : ℕ), (-1 : ℚ))] [((0 : ℚ), (-1 : ℚ))]
      [((0 : ℚ), (1 : ℚ))] = (-1, 1) := by
    unfold calc_score
    rw [if_pos (by norm_num : 0 < ([((0 : ℕ), (0 : ℕ), (-1 : ℚ))]).length)]
    rw [hraw, hss1, hss2, hused]
    norm_num
  have hck1 : checkPeaks [((0 : ℚ), (-1 : ℚ))] = Except.ok () := by
    unfold checkPeaks
    show (if (-1 : ℚ) ≤ 1 then Except.ok () else Except.error ScoreErr.notNormalized)
      = Except.ok ()
    rw [if_pos (by norm_num : (-1 : ℚ) ≤ 1)]
  have hck2 : checkPeaks [((0 : ℚ), (1 : ℚ))] = Except.ok () := by
    unfold checkPeaks
    show (if (1 : ℚ) ≤ 1 then Except.ok () else Except.error ScoreErr.notNormalized)
      = Except.ok ()
    rw [if_pos (le_refl (1 : ℚ))]
  unfold cosineHungarian
  rw [hck1, hck2, hfp, hsp, hcs]

/-- C7 counterexample: for the realizable candidate list produced by the matcher on
`spec1 = [(0,1), (2,1/9)]`, `spec2 = [(-1,1/10), (1,9/10)]` with tolerance 1 (namely
`[(0,1,9/10), (0,0,1/10), (1,1,1/10)]` after the weight-descending sort), the solver's
`used_matches` contains the pair `(1, 0)`, which is not one of the candidate pairs:
the resolved matching is not a subset of the candidates. -/
theorem c7_counterexample :
    sortPairs (find_pairs_numba [((0 : ℚ), (1 : ℚ)), (2, 1/9)]
        [((-1 : ℚ), (1 : ℚ)/10), (1, 9/10)] 1 0)
      = [(0, 1, 9/10), (0, 0, 1/10), (1, 1, 1/10)] ∧
    (1, 0) ∈ usedMatches [((0 : ℕ), (1 : ℕ), (9 : ℚ)/10), (0, 0, 1/10), (1, 1, 1/10)] ∧
    ([((0 : ℕ), (1 : ℕ), (9 : ℚ)/10), (0, 0, 1/10), (1, 1, 1/10)].all
        (fun p => !(decide (p.1 = 1) && decide (p.2.1 = 0)))) = true := by
  have hfp : find_pairs_numba [((0 : ℚ), (1 : ℚ)), (2, 1/9)]
      [((-1 : ℚ), (1 : ℚ)/10), (1, 9/10)] 1 0
      = [(0, 0, 1/10), (0, 1, 9/10), (1, 1, 1/10)] := by
    norm_num [find_pairs_numba, List.range_succ, List.filter_cons, List.flatMap_cons,
      List.getD_cons_zero, List.getD_cons_succ, abs_le]
  have hsp : sortPairs [((0 : ℕ), (0 : ℕ), (1 : ℚ)/10), (0, 1, 9/10), (1, 1, 1/10)]
      = [(0, 1, 9/10), (0, 0, 1/10), (1, 1, 1/10)] := by
    norm_num [sortPairs, List.insertionSort, List.orderedInsert]
  have hl1 : list1 [((0 : ℕ), (1 : ℕ), (9 : ℚ)/10), (0, 0, 1/10), (1, 1, 1/10)]
      = [0, 1] := rfl
  have hl2 : list2 [((0 : ℕ), (1 : ℕ), (9 : ℚ)/10), (0, 0, 1/10), (1, 1, 1/10)]
      = [0, 1] := rfl
  have hidx0 : ([0, 1] : List ℕ).indexOf 0 = 0 := rfl
  have hidx1 : ([0, 1] : List ℕ).indexOf 1 = 1 := rfl
  have hm00 : pairsMatrix [((0 : ℕ), (1 : ℕ), (9 : ℚ)/10), (0, 0, 1/10), (1, 1, 1/10)] 0 0
      = 9/10 := by
    norm_num [pairsMatrix, buildMatrix, writeEntry, hl1, hl2, hidx0, hidx1,
      List.foldl_cons, List.foldl_nil]
  have hm01 : pairsMatrix [((0 : ℕ), (1 : ℕ), (9 : ℚ)/10), (0, 0, 1/10), (1, 1, 1/10)] 0 1
      = 1/10 := by
    norm_num [pairsMatrix, buildMatrix, writeEntry, hl1, hl2, hidx0, hidx1,
      List.foldl_cons, List.foldl_nil]
  have hm10 : pairsMatrix [((0 : ℕ), (1 : ℕ), (9 : ℚ)/10), (0, 0, 1/10), (1, 1, 1/10)] 1 0
      = 1 := by
    norm_num [pairsMatrix, buildMatrix, writeEntry, hl1, hl2, hidx0, hidx1,
      List.foldl_cons, List.foldl_nil]
  have hm11 : pairsMatrix [((0 : ℕ), (1 : ℕ), (9 : ℚ)/10), (0, 0, 1/10), (1, 1, 1/10)] 1 1
      = 9/10 := by
    norm_num [pairsMatrix, buildMatrix, writeEntry, hl1, hl2, hidx0, hidx1,
      List.foldl_cons, List.foldl_nil]
  have hz1 : (List.range ([0, 1] : List ℕ).length).zip ([0, 1] : List ℕ)
      = [(0, 0), (1, 1)] := rfl
  have hz2 : (List.range ([0, 1] : List ℕ).length).zip ([1, 0] : List ℕ)
      = [(0, 1), (1, 0)] := rfl
  have hf1 : assignCost
      (pairsMatrix [((0 : ℕ), (1 : ℕ), (9 : ℚ)/10), (0, 0, 1/10), (1, 1, 1/10)])
      ((List.range ([0, 1] : List ℕ).length).zip ([0, 1] : List ℕ)) = 9/5 := by
    rw [hz1]
    norm_num [assignCost, hm00, hm11]
  have hf2 : assignCost
      (pairsMatrix [((0 : ℕ), (1 : ℕ), (9 : ℚ)/10), (0, 0, 1/10), (1, 1, 1/10)])
      ((List.range ([0, 1] : List ℕ).length).zip ([1, 0] : List ℕ)) = 11/10 := by
    rw [hz2]
    norm_num [assignCost, hm01, hm10]
  have hassign : hungarianAssign
      [((0 : ℕ), (1 : ℕ), (9 : ℚ)/10), (0, 0, 1/10), (1, 1, 1/10)]
      = [(0, 1), (1, 0)] := by
    show lsa (pairsMatrix [((0 : ℕ), (1 : ℕ), (9 : ℚ)/10), (0, 0, 1/10), (1, 1, 1/10)])
      (list1 [((0 : ℕ), (1 : ℕ), (9 : ℚ)/10), (0, 0, 1/10), (1, 1, 1/10)]).length
      (list2 [((0 : ℕ), (1 : ℕ), (9 : ℚ)/10), (0, 0, 1/10), (1, 1, 1/10)]).length
      = [(0, 1), (1, 0)]
    rw [hl1, hl2]
    unfold lsa
    rw [if_pos (le_refl ([0, 1] : List ℕ).length)]
    have hinj : injections ([0, 1] : List ℕ).length ([0, 1] : List ℕ).length
        = [[0, 1], [1, 0]] := rfl
    rw [hinj]
    have harg : argminBy (fun t => assignCost
        (pairsMatrix [((0 : ℕ), (1 : ℕ), (9 : ℚ)/10), (0, 0, 1/10), (1, 1, 1/10)])
        ((List.range ([0, 1] : List ℕ).length).zip t)) [[0, 1], [1, 0]]
        = some [1, 0] := by
      simp only [argminBy]
      rw [if_neg]
      rw [hf1, hf2]
      norm_num
    rw [harg]
    rfl
  have hused : usedMatches [((0 : ℕ), (1 : ℕ), (9 : ℚ)/10), (0, 0, 1/10), (1, 1, 1/10)]
      = [(0, 1), (1, 0)] := by
    unfold usedMatches
    rw [hassign, hl1, hl2]
    rfl
  refine ⟨?_, ?_, by decide⟩
  · rw [hfp, hsp]
  · rw [hused]
    decide

/-- C7 amended witness: the candidate list `[(0, 0, 1/2)]`, whose single used match
`(0, 0)` is characterized by the amended statement. -/
theorem c7_amended_used_matches_witness :
    (0 : ℕ) ∈ list1 [((0 : ℕ), (0 : ℕ), (1 : ℚ)/2)] ∧
      (0 : ℕ) ∈ list2 [((0 : ℕ), (0 : ℕ), (1 : ℚ)/2)] ∧
      ((∃ w, ((0 : ℕ), (0 : ℕ), w) ∈ [((0 : ℕ), (0 : ℕ), (1 : ℚ)/2)] ∧
          pairsMatrix [((0 : ℕ), (0 : ℕ), (1 : ℚ)/2)]
              ((list1 [((0 : ℕ), (0 : ℕ), (1 : ℚ)/2)]).indexOf 0)
              ((list2 [((0 : ℕ), (0 : ℕ), (1 : ℚ)/2)]).indexOf 0) = 1 - w) ∨
        pairsMatrix [((0 : ℕ), (0 : ℕ), (1 : ℚ)/2)]
            ((list1 [((0 : ℕ), (0 : ℕ), (1 : ℚ)/2)]).indexOf 0)
            ((list2 [((0 : ℕ), (0 : ℕ), (1 : ℚ)/2)]).indexOf 0) = 1) :=
  c7_amended_used_matches [((0 : ℕ), (0 : ℕ), (1 : ℚ)/2)] 0 0 (by decide)

/-- Pointwise sums of rational-valued maps split. -/
theorem sum_map_add {α : Type} (l : List α) (g h : α → ℚ) :
    (l.map (fun x => g x + h x)).sum = (l.map g).sum + (l.map h).sum := by
  induction l with
  | nil => simp
  | cons a t ih =>
    simp only [List.map_cons, List.sum_cons, ih]
    ring

/-- Constant multiples move out of a summed map. -/
theorem sum_map_two_mul {α : Type} (l : List α) (g : α → ℚ) :
    (l.map (fun x => 2 * g x)).sum = 2 * (l.map g).sum := by
  induction l with
  | nil => simp
  | cons a t ih =>
    simp only [List.map_cons, List.sum_cons, ih]
    ring

/-- A sum of a nonnegative function over distinct indices below `n` is at most the
full sum over `0, ..., n-1`. -/
theorem sum_over_nodup_le (t : List ℕ) (n : ℕ) (f : ℕ → ℚ) (hnd : t.Nodup)
    (hb : ∀ x ∈ t, x < n) (hf : ∀ x, 0 ≤ f x) :
    (t.map f).sum ≤ ((List.range n).map f).sum := by
  rw [← List.sum_toFinset f hnd, ← List.sum_toFinset f (List.nodup_range n)]
  apply Finset.sum_le_sum_of_subset_of_nonneg
  · intro x hx
    rw [List.mem_toFinset] at hx ⊢
    rw [List.mem_range]
    exact hb x hx
  · intro x _ _
    exact hf x

/-- Reading every position of a list through `getD` reproduces the list. -/
theorem map_getD_range {α : Type} (l : List α) (d : α) :
    (List.range l.length).map (fun i => l.getD i d) = l := by
  apply List.ext_getElem (by simp)
  intro i h1 h2
  simp only [List.getElem_map, List.getElem_range]
  exact List.getD_eq_getElem l d h2

/-- Mapping a composed read through all positions of a list reproduces the mapped list. -/
theorem map_comp_getD_range {α : Type} (l : List α) (d : α) (g : α → ℚ) :
    (List.range l.length).map (fun i => g (l.getD i d)) = l.map g := by
  have h := map_getD_range l d
  calc (List.range l.length).map (fun i => g (l.getD i d))
      = ((List.range l.length).map (fun i => l.getD i d)).map g := by
        rw [List.map_map]
        rfl
    _ = l.map g := by rw [h]

/-- Core bound: under intensities in `[0, 1]` and a positive normalizer, the score
component computed by `calc_score` on the sorted matcher output lies in `[0, 1]`. -/
theorem calc_score_bounds (spec1 spec2 : PeakArray) (tolerance : ℚ)
    (h1 : ∀ p ∈ spec1, 0 ≤ p.2 ∧ p.2 ≤ 1) (h2 : ∀ p ∈ spec2, 0 ≤ p.2 ∧ p.2 ≤ 1)
    (hpos : 0 < max (sumSquares spec1) (sumSquares spec2)) :
    0 ≤ (calc_score (sortPairs (find_pairs_numba spec1 spec2 tolerance 0)) spec1 spec2).1 ∧
      (calc_score (sortPairs (find_pairs_numba spec1 spec2 tolerance 0)) spec1 spec2).1
        ≤ 1 := by
  set P := sortPairs (find_pairs_numba spec1 spec2 tolerance 0) with hPdef
  by_cases hP : P.length = 0
  · have hzero : calc_score P spec1 spec2 = (0, 0) := by
      unfold calc_score
      rw [if_neg (by omega)]
    rw [hzero]
    norm_num
  · have hlen : 0 < P.length := Nat.pos_of_ne_zero hP
    have hcs : (calc_score P spec1 spec2).1
        = rawScore P / max (sumSquares spec1) (sumSquares spec2) := by
      unfold calc_score
      rw [if_pos hlen]
    have hwP : ∀ p ∈ P, p.1 < spec1.length ∧ p.2.1 < spec2.length ∧
        0 ≤ p.2.2 ∧ p.2.2 ≤ 1 ∧
        p.2.2 = (spec1.getD p.1 (0, 0)).2 * (spec2.getD p.2.1 (0, 0)).2 := by
      intro p hp
      have hpF : p ∈ find_pairs_numba spec1 spec2 tolerance 0 :=
        (List.perm_insertionSort _ _).mem_iff.1 (hPdef ▸ hp)
      obtain ⟨hi, hj, -, hw⟩ :=
        (find_pairs_mem_iff spec1 spec2 tolerance 0 p.1 p.2.1 p.2.2).1 hpF
      have hA : spec1.getD p.1 (0, 0) ∈ spec1 := by
        rw [List.getD_eq_getElem spec1 (0, 0) hi]
        exact List.getElem_mem hi
      have hB : spec2.getD p.2.1 (0, 0) ∈ spec2 := by
        rw [List.getD_eq_getElem spec2 (0, 0) hj]
        exact List.getElem_mem hj
      obtain ⟨ha0, ha1⟩ := h1 _ hA
      obtain ⟨hb0, hb1⟩ := h2 _ hB
      refine ⟨hi, hj, ?_, ?_, hw⟩
      · rw [hw]
        exact mul_nonneg ha0 hb0
      · rw [hw]
        exact mul_le_one₀ ha1 hb0 hb1
    have hb1 : ∀ a ∈ list1 P, a < spec1.length := by
      intro a ha
      simp only [list1, List.mem_dedup, List.mem_map] at ha
      obtain ⟨p, hp, rfl⟩ := ha
      exact (hwP p hp).1
    have hb2 : ∀ b ∈ list2 P, b < spec2.length := by
      intro b hb
      simp only [list2, List.mem_dedup, List.mem_map] at hb
      obtain ⟨p, hp, rfl⟩ := hb
      exact (hwP p hp).2.1
    have hm_le_one : ∀ i j, pairsMatrix P i j ≤ 1 := by
      intro i j
      rcases pairsMatrix_cases P i j with hone | ⟨p, hp, -, -, hval⟩
      · exact le_of_eq hone
      · rw [hval]
        have := (hwP p hp).2.2.1
        linarith
    obtain ⟨hfstnd, hsndnd, hbounds⟩ :=
      lsa_shape (pairsMatrix P) (list1 P).length (list2 P).length
    have hgain : rawScore P = ((hungarianAssign P).map
        (fun c => 1 - pairsMatrix P c.1 c.2)).sum := by
      unfold rawScore assignCost
      exact length_sub_sum _ _
    have hgain_nonneg : 0 ≤ rawScore P := by
      rw [hgain]
      apply List.sum_nonneg
      intro x hx
      obtain ⟨c, hc, rfl⟩ := List.mem_map.1 hx
      have := hm_le_one c.1 c.2
      linarith
    have hcell : ∀ c ∈ hungarianAssign P, 2 * (1 - pairsMatrix P c.1 c.2) ≤
        (spec1.getD ((list1 P).getD c.1 0) (0, 0)).2 ^ 2 +
          (spec2.getD ((list2 P).getD c.2 0) (0, 0)).2 ^ 2 := by
      intro c hc
      rcases pairsMatrix_cases P c.1 c.2 with hone | ⟨p, hp, hpi, hpj, hval⟩
      · rw [hone]
        have hq1 := sq_nonneg (spec1.getD ((list1 P).getD c.1 0) (0, 0)).2
        have hq2 := sq_nonneg (spec2.getD ((list2 P).getD c.2 0) (0, 0)).2
        linarith
      · rw [hval]
        obtain ⟨-, -, -, -, hw⟩ := hwP p hp
        have hga : (list1 P).getD c.1 0 = p.1 := by
          rw [hpi, getD_indexOf (fst_mem_list1 hp)]
        have hgb : (list2 P).getD c.2 0 = p.2.1 := by
          rw [hpj, getD_indexOf (snd_mem_list2 hp)]
        rw [hga, hgb, hw]
        have heq : 2 * (1 - (1 - (spec1.getD p.1 (0, 0)).2 * (spec2.getD p.2.1 (0, 0)).2))
            = 2 * (spec1.getD p.1 (0, 0)).2 * (spec2.getD p.2.1 (0, 0)).2 := by
          ring
        rw [heq]
        exact two_mul_le_add_sq _ _
    have hA_bound : ((hungarianAssign P).map (fun c =>
        (spec1.getD ((list1 P).getD c.1 0) (0, 0)).2 ^ 2)).sum ≤ sumSquares spec1 := by
      have hmm : (hungarianAssign P).map (fun c =>
          (spec1.getD ((list1 P).getD c.1 0) (0, 0)).2 ^ 2)
          = ((hungarianAssign P).map Prod.fst).map
            (fun i => (spec1.getD ((list1 P).getD i 0) (0, 0)).2 ^ 2) := by
        rw [List.map_map]
        rfl
      rw [hmm]
      have hfst_b : ∀ i ∈ (hungarianAssign P).map Prod.fst, i < (list1 P).length := by
        intro i hi
        obtain ⟨c, hc, rfl⟩ := List.mem_map.1 hi
        exact (hbounds c hc).1
      refine le_trans (sum_over_nodup_le _ (list1 P).length _ hfstnd hfst_b
        (fun x => sq_nonneg _)) ?_
      rw [map_comp_getD_range (list1 P) 0
        (fun a => (spec1.getD a (0, 0)).2 ^ 2)]
      refine le_trans (sum_over_nodup_le _ spec1.length _ (list1_nodup P) hb1
        (fun x => sq_nonneg _)) ?_
      rw [map_comp_getD_range spec1 (0, 0) (fun p => p.2 ^ 2)]
      exact le_refl _
    have hB_bound : ((hungarianAssign P).map (fun c =>
        (spec2.getD ((list2 P).getD c.2 0) (0, 0)).2 ^ 2)).sum ≤ sumSquares spec2 := by
      have hmm : (hungarianAssign P).map (fun c =>
          (spec2.getD ((list2 P).getD c.2 0) (0, 0)).2 ^ 2)
          = ((hungarianAssign P).map Prod.snd).map
            (fun j => (spec2.getD ((list2 P).getD j 0) (0, 0)).2 ^ 2) := by
        rw [List.map_map]
        rfl
      rw [hmm]
      have hsnd_b : ∀ j ∈ (hungarianAssign P).map Prod.snd, j < (list2 P).length := by
        intro j hj
        obtain ⟨c, hc, rfl⟩ := List.mem_map.1 hj
        exact (hbounds c hc).2
      refine le_trans (sum_over_nodup_le _ (list2 P).length _ hsndnd hsnd_b
        (fun x => sq_nonneg _)) ?_
      rw [map_comp_getD_range (list2 P) 0
        (fun b => (spec2.getD b (0, 0)).2 ^ 2)]
      refine le_trans (sum_over_nodup_le _ spec2.length _ (list2_nodup P) hb2
        (fun x => sq_nonneg _)) ?_
      rw [map_comp_getD_range spec2 (0, 0) (fun p => p.2 ^ 2)]
      exact le_refl _
    have hsum2 : 2 * rawScore P ≤ sumSquares spec1 + sumSquares spec2 := by
      rw [hgain, ← sum_map_two_mul]
      refine le_trans (List.sum_le_sum (fun c hc => hcell c hc)) ?_
      rw [sum_map_add]
      exact add_le_add hA_bound hB_bound
    have hle_max : rawScore P ≤ max (sumSquares spec1) (sumSquares spec2) := by
      have ha := le_max_left (sumSquares spec1) (sumSquares spec2)
      have hb := le_max_right (sumSquares spec1) (sumSquares spec2)
      linarith
    rw [hcs]
    constructor
    · exact div_nonneg hgain_nonneg (le_of_lt hpos)
    · rw [div_le_one hpos]
      exact hle_max

/-- C6 amended: under non-empty peak arrays with all intensities in `[0, 1]` (in
particular maximum intensity at most 1, so the normalization assertions pass) and at
least one nonzero intensity (so the normalizer denominator is positive), the score
returned by the scorer lies in the closed interval `[0, 1]`, for every tolerance.
Without the nonnegativity strengthening the claim is false (see the counterexample
with intensity `-1`). -/
theorem c6_amended_score_in_unit_interval (spec1 spec2 : PeakArray) (tolerance : ℚ)
    (h1 : ∀ p ∈ spec1, 0 ≤ p.2 ∧ p.2 ≤ 1) (h2 : ∀ p ∈ spec2, 0 ≤ p.2 ∧ p.2 ≤ 1)
    (hne1 : spec1 ≠ []) (hne2 : spec2 ≠ [])
    (hpos : 0 < max (sumSquares spec1) (sumSquares spec2)) :
    ∃ sc n, cosineHungarian tolerance spec1 spec2 = Except.ok (sc, n) ∧
      0 ≤ sc ∧ sc ≤ 1 := by
  have hck1 := checkPeaks_ok spec1 hne1 (fun p hp => (h1 p hp).2)
  have hck2 := checkPeaks_ok spec2 hne2 (fun p hp => (h2 p hp).2)
  have hbounds := calc_score_bounds spec1 spec2 tolerance h1 h2 hpos
  refine ⟨(calc_score (sortPairs (find_pairs_numba spec1 spec2 tolerance 0)) spec1 spec2).1,
    (calc_score (sortPairs (find_pairs_numba spec1 spec2 tolerance 0)) spec1 spec2).2,
    ?_, hbounds.1, hbounds.2⟩
  unfold cosineHungarian
  rw [hck1, hck2]

/-- C6 amended witness: two identical one-peak spectra with intensity 1. -/
theorem c6_amended_score_in_unit_interval_witness :
    ∃ sc n, cosineHungarian (1/10) [((0 : ℚ), (1 : ℚ))] [((0 : ℚ), (1 : ℚ))]
        = Except.ok (sc, n) ∧ 0 ≤ sc ∧ sc ≤ 1 :=
  c6_amended_score_in_unit_interval [((0 : ℚ), (1 : ℚ))] [((0 : ℚ), (1 : ℚ))] (1/10)
    (by
      intro p hp
      rw [List.mem_singleton.1 hp]
      norm_num)
    (by
      intro p hp
      rw [List.mem_singleton.1 hp]
      norm_num)
    (by simp) (by simp)
    (by norm_num [sumSquares])
